import Mathlib

/-!
Shallow embedding of `src/ef/ef_analysis.py`: enrichment-factor analysis of
molecule-event associations against molecule-target predictions.

Conventions of the embedding:
* opaque string identifiers (molecules, events, targets) become `ℕ`;
* a Python dict of sets (`events_to_drugs`, `targets_to_drugs`) becomes an
  association list `List (ℕ × Finset ℕ)`; Python dicts have unique keys,
  which appears as `Nodup` hypotheses on the key lists where needed;
* Python floats become `ℚ`; the `ZeroDivisionError` caught by `compute_efs`
  becomes an explicit guard on the denominator;
* the chi-squared p-value of `scipy.stats.chi2_contingency` is an external
  library call and is abstracted as a p-value oracle parameter `pv`;
* logging is dropped; the `assert` of `precompute_sums` becomes `Option`,
  with `none` embedding the `AssertionError`.
-/

namespace EfAnalysis

/-- Association list from identifiers to molecule sets: the embedding of a
Python dict of sets. -/
abbrev SetDict := List (ℕ × Finset ℕ)

/-- Python dict lookup `d[k]` for a dict of sets (`∅` outside the key set;
the source only looks up present keys). -/
def dlookup : SetDict → ℕ → Finset ℕ
  | [], _ => ∅
  | kv :: rest, k => if kv.1 = k then kv.2 else dlookup rest k

/-- Python dict lookup `d[k]` for a dict of integers (the marginal sums
`E` and `T`). -/
def nlookup : List (ℕ × ℕ) → ℕ → ℕ
  | [], _ => 0
  | kv :: rest, k => if kv.1 = k then kv.2 else nlookup rest k

/-- One step `out_setdict[x].add(k)` of `flip_setdict`: add `k` to the set
stored at key `x`, creating the entry as a `defaultdict(set)` would. -/
def dinsert (d : SetDict) (x k : ℕ) : SetDict :=
  if x ∈ d.map Prod.fst then
    d.map fun kv => if kv.1 = x then (kv.1, insert k kv.2) else kv
  else d ++ [(x, {k})]

/-- Source `flip_setdict`: reverse a dict of sets (molecule to set of keys).
Python iterates each molecule set in unspecified order; the embedding fixes
the ascending order. -/
def flip_setdict (d : SetDict) : SetDict :=
  d.foldl (fun out kv => (kv.2.sort (· ≤ ·)).foldl (fun o x => dinsert o x kv.1) out) []

/-- Source `flatten_setdict`: union of all value sets of a dict of sets. -/
def flatten_setdict (d : SetDict) : Finset ℕ :=
  d.foldl (fun out kv => out ∪ kv.2) ∅

/-- Source `prune_events`: intersect every event's molecule set with the set
of molecules that have a target; events are kept even when the intersection
is empty.  `has_event` is only used by the source for logging the rejects. -/
def prune_events (events_to_drugs : SetDict) (has_event has_target : Finset ℕ) : SetDict :=
  events_to_drugs.map fun kv => (kv.1, kv.2 ∩ has_target)

/-- Source `precompute_sums`: flip both maps, assert that the flipped dicts
have equal length (the Python `assert` compares `len`), then compute the
marginal sums `E[event] = Σ_{drug ∈ drugs} |drugs_to_targets[drug]|` and
`T[target] = Σ_{drug ∈ drugs} |drugs_to_events[drug]|`.
`none` embeds the `AssertionError`. -/
def precompute_sums (events_to_drugs targets_to_drugs : SetDict) :
    Option (List (ℕ × ℕ) × List (ℕ × ℕ)) :=
  let drugs_to_targets := flip_setdict targets_to_drugs
  let drugs_to_events := flip_setdict events_to_drugs
  if drugs_to_events.length = drugs_to_targets.length then
    some
      (events_to_drugs.map fun kv =>
        (kv.1, kv.2.sum fun drug => (dlookup drugs_to_targets drug).card),
       targets_to_drugs.map fun kv =>
        (kv.1, kv.2.sum fun drug => (dlookup drugs_to_events drug).card))
  else none

/-- Inner loop of `compute_efs` over `targets_to_drugs.iteritems()` for one
fixed event row `ev`: returns the `(target, event) ↦ raw EF` entries stored
and the contribution of this event row to the global triplet count `P`
(`P += pte` runs before both the threshold check and the division).  The
second guard embeds the caught `ZeroDivisionError`: log and skip the pair. -/
def compute_efs_scan (E T : List (ℕ × ℕ)) (min_pairs : ℕ) (ev : ℕ × Finset ℕ) :
    List (ℕ × Finset ℕ) → List ((ℕ × ℕ) × ℚ) × ℕ
  | [] => ([], 0)
  | kw :: rest =>
    let acc := compute_efs_scan E T min_pairs ev rest
    let tt := nlookup T kw.1
    let pte := (kw.2 ∩ ev.2).card
    if pte < min_pairs then (acc.1, pte + acc.2)
    else if nlookup E ev.1 * tt = 0 then (acc.1, pte + acc.2)
    else (((kw.1, ev.1), (pte : ℚ) / ((nlookup E ev.1 * tt : ℕ) : ℚ)) :: acc.1, pte + acc.2)

/-- Outer loop of `compute_efs` over `events_to_drugs.iteritems()`: event
rows with `E[event] == 0` are skipped entirely. -/
def compute_efs_loop (E T : List (ℕ × ℕ)) (min_pairs : ℕ)
    (targets_to_drugs : SetDict) : SetDict → List ((ℕ × ℕ) × ℚ) × ℕ
  | [] => ([], 0)
  | kv :: rest =>
    let acc := compute_efs_loop E T min_pairs targets_to_drugs rest
    if nlookup E kv.1 = 0 then acc
    else
      let inner := compute_efs_scan E T min_pairs kv targets_to_drugs
      (inner.1 ++ acc.1, inner.2 + acc.2)

/-- Global triplet count `P` accumulated by the double loop of
`compute_efs`. -/
def compute_efs_P (E T : List (ℕ × ℕ)) (events_to_drugs targets_to_drugs : SetDict)
    (min_pairs : ℕ) : ℕ :=
  (compute_efs_loop E T min_pairs targets_to_drugs events_to_drugs).2

/-- Source `compute_efs`: the first pass builds raw EFs `p/(E·T)` while
accumulating `P`; the second pass multiplies every stored EF by the final
`P`.  `ef_cutoff` is threaded through exactly as in the source, where it is
never used. -/
def compute_efs (E T : List (ℕ × ℕ)) (events_to_drugs targets_to_drugs : SetDict)
    (min_pairs : ℕ) (ef_cutoff : ℚ) : List ((ℕ × ℕ) × ℚ) :=
  let scan := compute_efs_loop E T min_pairs targets_to_drugs events_to_drugs
  scan.1.map fun kv => (kv.1, kv.2 * (scan.2 : ℚ))

/-- Mirror of the inner loop of `compute_efs` recording, instead of the
stored pairs, the pairs on which the `except` branch fires: pairs that pass
the threshold check but whose denominator `E[event] * T[target]` is zero. -/
def ef_error_scan (E T : List (ℕ × ℕ)) (min_pairs : ℕ) (ev : ℕ × Finset ℕ) :
    List (ℕ × Finset ℕ) → List (ℕ × ℕ)
  | [] => []
  | kw :: rest =>
    let acc := ef_error_scan E T min_pairs ev rest
    let pte := (kw.2 ∩ ev.2).card
    if pte < min_pairs then acc
    else if nlookup E ev.1 * nlookup T kw.1 = 0 then (kw.1, ev.1) :: acc
    else acc

/-- Mirror of the outer loop of `compute_efs` collecting the logged-and-
skipped zero-denominator pairs over the whole double iteration. -/
def ef_error_pairs (E T : List (ℕ × ℕ)) (min_pairs : ℕ)
    (targets_to_drugs : SetDict) : SetDict → List (ℕ × ℕ)
  | [] => []
  | kv :: rest =>
    let acc := ef_error_pairs E T min_pairs targets_to_drugs rest
    if nlookup E kv.1 = 0 then acc
    else ef_error_scan E T min_pairs kv targets_to_drugs ++ acc

/-- Pruning precondition of claim C4: every molecule of an event row that
the outer loop does not skip has at least one target, and every target
molecule has at least one event. -/
def pruning_precondition (E : List (ℕ × ℕ)) (events_to_drugs targets_to_drugs : SetDict) : Prop :=
  (∀ kv ∈ events_to_drugs, nlookup E kv.1 ≠ 0 → ∀ m ∈ kv.2, ∃ kw ∈ targets_to_drugs, m ∈ kw.2) ∧
  (∀ kw ∈ targets_to_drugs, ∀ m ∈ kw.2, ∃ kv ∈ events_to_drugs, m ∈ kv.2)

instance (E : List (ℕ × ℕ)) (ev tg : SetDict) : Decidable (pruning_precondition E ev tg) := by
  unfold pruning_precondition
  infer_instance

/-- Weighted per-molecule count of `map_contingency_tables`: the `Counter`
counting, for each molecule, how many target rows contain it (the
molecule's out-degree in the target map). -/
def target_counts (targets_to_drugs : SetDict) (x : ℕ) : ℕ :=
  targets_to_drugs.countP fun kv => x ∈ kv.2

/-- Total weighted molecule-target pair count
`num_pairs = sum(target_counts.itervalues())`. -/
def num_pairs (targets_to_drugs : SetDict) : ℕ :=
  (flatten_setdict targets_to_drugs).sum (target_counts targets_to_drugs)

/-- Source `map_contingency_tables`: one 2x2 table
`[[both, events_only], [targets_only, neither]]` per stored EF key, from the
weighted counts. -/
def map_contingency_tables (efs : List ((ℕ × ℕ) × ℚ))
    (events_to_drugs targets_to_drugs : SetDict) :
    List ((ℕ × ℕ) × (ℤ × ℤ × ℤ × ℤ)) :=
  efs.map fun kv =>
    let e_drugs := dlookup events_to_drugs kv.1.2
    let t_drugs := dlookup targets_to_drugs kv.1.1
    let both : ℤ := ((e_drugs ∩ t_drugs).sum (target_counts targets_to_drugs) : ℕ)
    let evs : ℤ := ((e_drugs.sum (target_counts targets_to_drugs) : ℕ) : ℤ) - both
    let tgs : ℤ := ((t_drugs.sum (target_counts targets_to_drugs) : ℕ) : ℤ) - both
    let neither : ℤ := (num_pairs targets_to_drugs : ℤ) - both - evs - tgs
    (kv.1, (both, evs, tgs, neither))

/-- Strict total order on the indices of a p-value list: by p-value, ties
broken by index.  This is the order in which a stable ascending sort of the
p-values visits the indices. -/
def holmLt (ps : List ℚ) (k j : ℕ) : Prop :=
  ps.getD k 0 < ps.getD j 0 ∨ (ps.getD k 0 = ps.getD j 0 ∧ k < j)

instance (ps : List ℚ) (k j : ℕ) : Decidable (holmLt ps k j) := by
  unfold holmLt
  infer_instance

/-- Position of index `j` in the stable ascending sort of the p-values. -/
def holm_rank (ps : List ℚ) (j : ℕ) : ℕ :=
  ((Finset.range ps.length).filter fun k => holmLt ps k j).card

/-- Holm step-down factor: the p-value at sorted position `k` (0-based) is
scaled by `m - k`. -/
def holm_raw (ps : List ℚ) (j : ℕ) : ℚ :=
  ((ps.length - holm_rank ps j : ℕ) : ℚ) * ps.getD j 0

/-- Running maximum, at index `i`, of the step-down-scaled p-values over
the indices up to `i` in the stable ascending sort. -/
def holm_fold (ps : List ℚ) (i : ℕ) : ℚ :=
  ((Finset.range ps.length).filter fun k => holmLt ps k i).fold
    max (holm_raw ps i) (holm_raw ps)

/-- Modelled from the spec: the Holm step-down correction applied by
`statsmodels.stats.multitest.multipletests(p_vals, alpha=0.05, method='holm')`,
an external library (its code is not part of this repository).  Following
the spec, the adjusted p-value of index `i` is the running maximum, over the
indices up to `i` in the stable ascending sort, of the sorted p-values
scaled by their step-down factors, clipped at 1, returned in the original
order; the nominal alpha only affects the reject flags, which the caller
discards. -/
def holm_adjusted (ps : List ℚ) : List ℚ :=
  (List.range ps.length).map fun i => min 1 (holm_fold ps i)

/-- Source `compute_q_values`: per-table p-values from the chi-squared
oracle `pv`, then either Bonferroni scaling (when `bonferroni_count` is
truthy, i.e. neither `None` nor `0`) or the Holm correction.  Returns the
pair list, the p-values and the q-values. -/
def compute_q_values (contingencies : List ((ℕ × ℕ) × (ℤ × ℤ × ℤ × ℤ)))
    (pv : ℤ × ℤ × ℤ × ℤ → ℚ) (bonferroni_count : Option ℕ) :
    List (ℕ × ℕ) × List ℚ × List ℚ :=
  let target_event_pairs := contingencies.map Prod.fst
  let p_vals := contingencies.map fun kv => pv kv.2
  let q_vals :=
    if bonferroni_count.getD 0 ≠ 0 then
      p_vals.map fun p => p * ((bonferroni_count.getD 0 : ℕ) : ℚ)
    else holm_adjusted p_vals
  (target_event_pairs, p_vals, q_vals)

/-- Report loop of `ef_analysis` (the rows after the header): zip the pair
list with the p-values and q-values, and emit a row exactly when
`efs[te_pair] > ef_cutoff and q_val < qvalue_cutoff`.  The `%.5g` string
formatting of the source is external float rendering and is not modelled:
rows carry the raw values. -/
def report_rows (efsLookup : ℕ × ℕ → ℚ) (tname : ℕ → ℕ) (ef_cutoff qvalue_cutoff : ℚ) :
    List (ℕ × ℕ) → List ℚ → List ℚ → List (ℕ × ℕ × ℕ × ℚ × ℚ × ℚ)
  | pr :: prs, p :: ps, q :: qs =>
    if ef_cutoff < efsLookup pr ∧ q < qvalue_cutoff then
      (pr.1, tname pr.1, pr.2, efsLookup pr, p, q) ::
        report_rows efsLookup tname ef_cutoff qvalue_cutoff prs ps qs
    else report_rows efsLookup tname ef_cutoff qvalue_cutoff prs ps qs
  | _, _, _ => []

/-! ### Association-list and flatten lemmas -/

theorem dlookup_of_mem {d : SetDict} {kv : ℕ × Finset ℕ} (hnd : (d.map Prod.fst).Nodup)
    (hmem : kv ∈ d) : dlookup d kv.1 = kv.2 := by
  induction d with
  | nil => cases hmem
  | cons hd tl ih =>
    rcases List.mem_cons.mp hmem with h | h
    · subst h
      simp [dlookup]
    · have hne : hd.1 ≠ kv.1 := by
        intro hcontra
        have : kv.1 ∈ tl.map Prod.fst := List.mem_map_of_mem Prod.fst h
        rw [List.map_cons, List.nodup_cons] at hnd
        exact hnd.1 (hcontra ▸ this)
      have htl : (tl.map Prod.fst).Nodup := by
        rw [List.map_cons, List.nodup_cons] at hnd
        exact hnd.2
      simpa [dlookup, hne] using ih htl h

theorem nlookup_map_of_mem {d : SetDict} {kv : ℕ × Finset ℕ} (f : ℕ × Finset ℕ → ℕ)
    (hnd : (d.map Prod.fst).Nodup) (hmem : kv ∈ d) :
    nlookup (d.map fun kw => (kw.1, f kw)) kv.1 = f kv := by
  induction d with
  | nil => cases hmem
  | cons hd tl ih =>
    rcases List.mem_cons.mp hmem with h | h
    · subst h
      simp [nlookup]
    · have hne : hd.1 ≠ kv.1 := by
        intro hcontra
        have : kv.1 ∈ tl.map Prod.fst := List.mem_map_of_mem Prod.fst h
        rw [List.map_cons, List.nodup_cons] at hnd
        exact hnd.1 (hcontra ▸ this)
      have htl : (tl.map Prod.fst).Nodup := by
        rw [List.map_cons, List.nodup_cons] at hnd
        exact hnd.2
      simpa [nlookup, hne] using ih htl h

theorem flatten_setdict_foldl (d : SetDict) (s : Finset ℕ) :
    d.foldl (fun out kv => out ∪ kv.2) s = s ∪ flatten_setdict d := by
  induction d generalizing s with
  | nil => simp [flatten_setdict]
  | cons hd tl ih =>
    show tl.foldl _ (s ∪ hd.2) = s ∪ flatten_setdict (hd :: tl)
    rw [ih (s ∪ hd.2)]
    have : flatten_setdict (hd :: tl) = hd.2 ∪ flatten_setdict tl := by
      show tl.foldl _ (∅ ∪ hd.2) = _
      rw [ih (∅ ∪ hd.2), Finset.empty_union]
    rw [this, Finset.union_assoc]

theorem mem_flatten_setdict {d : SetDict} {x : ℕ} :
    x ∈ flatten_setdict d ↔ ∃ kv ∈ d, x ∈ kv.2 := by
  induction d with
  | nil => simp [flatten_setdict]
  | cons hd tl ih =>
    have : flatten_setdict (hd :: tl) = hd.2 ∪ flatten_setdict tl := by
      show tl.foldl _ (∅ ∪ hd.2) = _
      rw [flatten_setdict_foldl, Finset.empty_union]
    rw [this]
    simp [ih, Finset.mem_union, exists_eq_or_imp]

/-! ### Claim theorems: report filter and EF-cutoff independence -/

/-- Claim C7: the report filter emits a data row for a (target, event) pair
if and only if the pair's EF is strictly greater than the EF cutoff and its
q-value is strictly less than the q-value cutoff: the emitted rows are
exactly the filtering of the zipped (pair, p-value, q-value) triples by
these two strict comparisons. -/
theorem report_rows_strict_filter (efsL : ℕ × ℕ → ℚ) (tname : ℕ → ℕ) (efc qc : ℚ)
    (pairs : List (ℕ × ℕ)) (ps qs : List ℚ) :
    report_rows efsL tname efc qc pairs ps qs =
      (((pairs.zip ps).zip qs).filter fun x => efc < efsL x.1.1 ∧ x.2 < qc).map
        fun x => (x.1.1.1, tname x.1.1.1, x.1.1.2, efsL x.1.1, x.1.2, x.2) := by
  induction pairs generalizing ps qs with
  | nil => simp [report_rows]
  | cons pr prs ih =>
    cases ps with
    | nil => simp [report_rows]
    | cons p ps =>
      cases qs with
      | nil => simp [report_rows]
      | cons q qs =>
        by_cases h : efc < efsL pr ∧ q < qc
        · simp [report_rows, h, ih]
        · simp [report_rows, h, ih]

/-- Claim C8: the EF mapping returned by `compute_efs` does not depend on
the `ef_cutoff` argument: two calls differing only in `ef_cutoff` return
identical results. -/
theorem compute_efs_ef_cutoff_independent (E T : List (ℕ × ℕ)) (events targets : SetDict)
    (min_pairs : ℕ) (c₁ c₂ : ℚ) :
    compute_efs E T events targets min_pairs c₁ =
      compute_efs E T events targets min_pairs c₂ := rfl

/-! ### Claim theorem: pruning -/

/-- Claim C9: `prune_events` preserves every event key of the input map (an
event whose molecules are all removed stays, with an empty set), and after
pruning against `flatten_setdict targets_to_drugs` every molecule of every
event's set belongs to at least one target's molecule set. -/
theorem prune_events_keys_and_target_cover (events_to_drugs : SetDict)
    (has_event : Finset ℕ) (targets_to_drugs : SetDict) :
    (prune_events events_to_drugs has_event (flatten_setdict targets_to_drugs)).map Prod.fst =
        events_to_drugs.map Prod.fst ∧
      ∀ kv ∈ prune_events events_to_drugs has_event (flatten_setdict targets_to_drugs),
        ∀ m ∈ kv.2, ∃ kw ∈ targets_to_drugs, m ∈ kw.2 := by
  constructor
  · simp [prune_events]
  · intro kv hkv m hm
    obtain ⟨kv₀, hkv₀, hval⟩ := List.mem_map.mp hkv
    have : m ∈ kv₀.2 ∩ flatten_setdict targets_to_drugs := by
      rw [← hval] at hm
      exact hm
    exact mem_flatten_setdict.mp (Finset.mem_inter.mp this).2

/-! ### Claim theorem: contingency tables -/

theorem target_counts_eq_zero {targets_to_drugs : SetDict} {x : ℕ}
    (hx : x ∉ flatten_setdict targets_to_drugs) : target_counts targets_to_drugs x = 0 := by
  rw [target_counts, List.countP_eq_zero]
  intro kv hkv
  simp only [decide_eq_true_eq]
  intro hx2
  exact hx (mem_flatten_setdict.mpr ⟨kv, hkv, hx2⟩)

theorem sum_target_counts_le (targets_to_drugs : SetDict) (s : Finset ℕ) :
    s.sum (target_counts targets_to_drugs) ≤ num_pairs targets_to_drugs := by
  have h1 : s.sum (target_counts targets_to_drugs) =
      (s ∩ flatten_setdict targets_to_drugs).sum (target_counts targets_to_drugs) := by
    refine (Finset.sum_subset Finset.inter_subset_left ?_).symm
    intro x hxs hxnot
    have hxfl : x ∉ flatten_setdict targets_to_drugs := fun hfl =>
      hxnot (Finset.mem_inter.mpr ⟨hxs, hfl⟩)
    exact target_counts_eq_zero hxfl
  rw [h1, num_pairs]
  exact Finset.sum_le_sum_of_subset Finset.inter_subset_right

/-- Claim C10: every 2x2 contingency table built by `map_contingency_tables`
for a key whose event and target occur in the maps has four non-negative
integer entries summing to `num_pairs`, the total weighted molecule-target
pair count of the whole target map. -/
theorem map_contingency_tables_entries (efs : List ((ℕ × ℕ) × ℚ))
    (events_to_drugs targets_to_drugs : SetDict) (t e : ℕ) (tbl : ℤ × ℤ × ℤ × ℤ)
    (hmem : ((t, e), tbl) ∈ map_contingency_tables efs events_to_drugs targets_to_drugs)
    (he : e ∈ events_to_drugs.map Prod.fst) (ht : t ∈ targets_to_drugs.map Prod.fst) :
    0 ≤ tbl.1 ∧ 0 ≤ tbl.2.1 ∧ 0 ≤ tbl.2.2.1 ∧ 0 ≤ tbl.2.2.2 ∧
      tbl.1 + tbl.2.1 + tbl.2.2.1 + tbl.2.2.2 = (num_pairs targets_to_drugs : ℤ) := by
  simp only [map_contingency_tables, List.mem_map] at hmem
  obtain ⟨kv, hkv, heq⟩ := hmem
  injection heq with hkey hval
  subst hval
  dsimp only
  set c := target_counts targets_to_drugs with hc
  set ed := dlookup events_to_drugs kv.1.2 with hed
  set td := dlookup targets_to_drugs kv.1.1 with htd
  have hboth_e : (ed ∩ td).sum c ≤ ed.sum c :=
    Finset.sum_le_sum_of_subset Finset.inter_subset_left
  have hboth_t : (ed ∩ td).sum c ≤ td.sum c :=
    Finset.sum_le_sum_of_subset Finset.inter_subset_right
  have hunion : (ed ∪ td).sum c + (ed ∩ td).sum c = ed.sum c + td.sum c :=
    Finset.sum_union_inter
  have hle : (ed ∪ td).sum c ≤ num_pairs targets_to_drugs :=
    sum_target_counts_le targets_to_drugs (ed ∪ td)
  refine ⟨by positivity, ?_, ?_, ?_, by ring⟩
  · simp only [sub_nonneg]
    exact_mod_cast hboth_e
  · simp only [sub_nonneg]
    exact_mod_cast hboth_t
  · have h2 : (((ed ∪ td).sum c : ℕ) : ℤ) + (((ed ∩ td).sum c : ℕ) : ℤ) =
        ((ed.sum c : ℕ) : ℤ) + ((td.sum c : ℕ) : ℤ) := by
      exact_mod_cast hunion
    have hle2 : (((ed ∪ td).sum c : ℕ) : ℤ) ≤ (num_pairs targets_to_drugs : ℤ) := by
      exact_mod_cast hle
    linarith

/-! ### Lemmas about `dinsert` and `flip_setdict` -/

theorem dlookup_eq_empty_of_not_mem {d : SetDict} {y : ℕ} (hy : y ∉ d.map Prod.fst) :
    dlookup d y = ∅ := by
  induction d with
  | nil => rfl
  | cons hd tl ih =>
    have hhd : hd.1 ≠ y := fun h => hy (by simp [h.symm])
    have htl : y ∉ tl.map Prod.fst := fun h => hy (List.mem_cons_of_mem _ h)
    simpa [dlookup, hhd] using ih htl

theorem mem_keys_cons {hd : ℕ × Finset ℕ} {tl : SetDict} {y : ℕ} :
    y ∈ (hd :: tl).map Prod.fst ↔ hd.1 = y ∨ y ∈ tl.map Prod.fst := by
  simp [eq_comm]

theorem dlookup_cons (kv : ℕ × Finset ℕ) (d : SetDict) (y : ℕ) :
    dlookup (kv :: d) y = if kv.1 = y then kv.2 else dlookup d y := rfl

theorem dlookup_append (d e : SetDict) (y : ℕ) :
    dlookup (d ++ e) y = if y ∈ d.map Prod.fst then dlookup d y else dlookup e y := by
  induction d with
  | nil => simp [dlookup]
  | cons hd tl ih =>
    show dlookup (hd :: (tl ++ e)) y = _
    by_cases hhd : hd.1 = y
    · rw [if_pos (mem_keys_cons.mpr (Or.inl hhd))]
      rw [dlookup_cons, dlookup_cons, if_pos hhd, if_pos hhd]
    · by_cases hy : y ∈ tl.map Prod.fst
      · rw [if_pos (mem_keys_cons.mpr (Or.inr hy))]
        rw [dlookup_cons, dlookup_cons, if_neg hhd, if_neg hhd, ih, if_pos hy]
      · have hcond : y ∉ (hd :: tl).map Prod.fst := fun h => by
          rcases mem_keys_cons.mp h with h | h
          · exact hhd h
          · exact hy h
        rw [if_neg hcond, dlookup_cons, if_neg hhd, ih, if_neg hy]

theorem dlookup_map_addkey_self (d : SetDict) (x k : ℕ) :
    dlookup (d.map fun kv => if kv.1 = x then (kv.1, insert k kv.2) else kv) x =
      if x ∈ d.map Prod.fst then insert k (dlookup d x) else ∅ := by
  induction d with
  | nil => simp [dlookup]
  | cons hd tl ih =>
    by_cases hhd : hd.1 = x
    · simp [dlookup_cons, hhd, mem_keys_cons]
    · have hne2 : ¬x = hd.1 := fun h => hhd h.symm
      simp only [List.map_cons, dlookup_cons, if_neg hhd, ih]
      by_cases hx : x ∈ List.map Prod.fst tl
      · rw [if_pos hx, if_pos (List.mem_cons_of_mem _ hx)]
      · have hcons : x ∉ hd.1 :: List.map Prod.fst tl := fun h => by
          rcases List.mem_cons.mp h with h | h
          · exact hne2 h
          · exact hx h
        rw [if_neg hx, if_neg hcons]

theorem dlookup_map_addkey_ne (d : SetDict) (x k y : ℕ) (hne : y ≠ x) :
    dlookup (d.map fun kv => if kv.1 = x then (kv.1, insert k kv.2) else kv) y =
      dlookup d y := by
  induction d with
  | nil => rfl
  | cons hd tl ih =>
    by_cases hhd : hd.1 = x
    · have hhy : hd.1 ≠ y := fun h => hne (h.symm.trans hhd)
      have hxy : ¬x = y := fun h => hne h.symm
      simp [dlookup_cons, hhd, hhy, hxy, ih]
    · by_cases hhy : hd.1 = y
      · simp [dlookup_cons, hhd, hhy, hne, ih]
      · simp [dlookup_cons, hhd, hhy, ih]

theorem dlookup_dinsert_self (d : SetDict) (x k : ℕ) :
    dlookup (dinsert d x k) x = insert k (dlookup d x) := by
  rw [dinsert]
  by_cases hx : x ∈ d.map Prod.fst
  · rw [if_pos hx, dlookup_map_addkey_self, if_pos hx]
  · rw [if_neg hx, dlookup_append, if_neg hx, dlookup_eq_empty_of_not_mem hx]
    simp [dlookup]

theorem dlookup_dinsert_ne (d : SetDict) (x k y : ℕ) (hne : y ≠ x) :
    dlookup (dinsert d x k) y = dlookup d y := by
  rw [dinsert]
  by_cases hx : x ∈ d.map Prod.fst
  · rw [if_pos hx, dlookup_map_addkey_ne d x k y hne]
  · rw [if_neg hx, dlookup_append]
    by_cases hy : y ∈ d.map Prod.fst
    · rw [if_pos hy]
    · rw [if_neg hy, dlookup_eq_empty_of_not_mem hy]
      simp [dlookup, Ne.symm hne]

theorem dlookup_foldl_dinsert (xs : List ℕ) (k : ℕ) (d : SetDict) (y : ℕ) :
    dlookup (xs.foldl (fun o x => dinsert o x k) d) y =
      if y ∈ xs then insert k (dlookup d y) else dlookup d y := by
  induction xs generalizing d with
  | nil => simp
  | cons x xs ih =>
    show dlookup (xs.foldl _ (dinsert d x k)) y = _
    rw [ih (dinsert d x k)]
    by_cases hyx : y = x
    · subst hyx
      by_cases hmem : y ∈ xs
      · simp [hmem, dlookup_dinsert_self, Finset.insert_idem]
      · simp [hmem, dlookup_dinsert_self]
    · by_cases hmem : y ∈ xs
      · simp [hmem, hyx, dlookup_dinsert_ne d x k y hyx]
      · simp [hmem, hyx, dlookup_dinsert_ne d x k y hyx]

theorem dlookup_flip_foldl (d : SetDict) (acc : SetDict) (y : ℕ) :
    dlookup (d.foldl (fun out kv => (kv.2.sort (· ≤ ·)).foldl (fun o x => dinsert o x kv.1) out) acc) y =
      d.foldl (fun s kv => if y ∈ kv.2 then insert kv.1 s else s) (dlookup acc y) := by
  induction d generalizing acc with
  | nil => rfl
  | cons hd tl ih =>
    show dlookup (tl.foldl _ ((hd.2.sort (· ≤ ·)).foldl (fun o x => dinsert o x hd.1) acc)) y = _
    rw [ih]
    have : dlookup ((hd.2.sort (· ≤ ·)).foldl (fun o x => dinsert o x hd.1) acc) y =
        if y ∈ hd.2 then insert hd.1 (dlookup acc y) else dlookup acc y := by
      rw [dlookup_foldl_dinsert]
      simp [Finset.mem_sort]
    rw [this]
    rfl

theorem foldl_insert_if_mono (y : ℕ) :
    ∀ (l : SetDict) (s : Finset ℕ),
      s ⊆ l.foldl (fun s kv => if y ∈ kv.2 then insert kv.1 s else s) s := by
  intro l
  induction l with
  | nil => intro s; exact subset_rfl
  | cons hd tl ih =>
    intro s
    refine subset_trans ?_ (ih (if y ∈ hd.2 then insert hd.1 s else s))
    by_cases hc : y ∈ hd.2
    · simp [hc, Finset.subset_insert]
    · simp [hc]

theorem mem_foldl_insert_if {y t : ℕ} {td : Finset ℕ} :
    ∀ (d : SetDict) (s : Finset ℕ), (t, td) ∈ d → y ∈ td →
      t ∈ d.foldl (fun s kv => if y ∈ kv.2 then insert kv.1 s else s) s := by
  intro d
  induction d with
  | nil => intro s hmem _; cases hmem
  | cons hd tl ih =>
    intro s hmem hy
    rcases List.mem_cons.mp hmem with h | h
    · have : t ∈ (if y ∈ hd.2 then insert hd.1 s else s : Finset ℕ) := by
        rw [← h]
        simp [hy]
      exact foldl_insert_if_mono y tl _ this
    · exact ih _ h hy

/-- Any target row containing molecule `y` appears in the flipped lookup of
`y`: this is how `flip_setdict` populates the reversed map. -/
theorem mem_dlookup_flip {d : SetDict} {t y : ℕ} {td : Finset ℕ}
    (hmem : (t, td) ∈ d) (hy : y ∈ td) : t ∈ dlookup (flip_setdict d) y := by
  rw [flip_setdict, dlookup_flip_foldl]
  exact mem_foldl_insert_if _ _ hmem hy

/-! ### The global triplet count `P` (claim C1) -/

theorem compute_efs_scan_P (E T : List (ℕ × ℕ)) (mp : ℕ) (ev : ℕ × Finset ℕ)
    (targets : List (ℕ × Finset ℕ)) :
    (compute_efs_scan E T mp ev targets).2 =
      (targets.map fun kw => (kw.2 ∩ ev.2).card).sum := by
  induction targets with
  | nil => rfl
  | cons kw rest ih =>
    simp only [compute_efs_scan]
    by_cases h1 : (kw.2 ∩ ev.2).card < mp
    · simp [h1, ih]
    · by_cases h2 : nlookup E ev.1 * nlookup T kw.1 = 0
      · simp [h1, h2, ih]
      · simp [h1, h2, ih]

theorem compute_efs_loop_P (E T : List (ℕ × ℕ)) (mp : ℕ)
    (targets events : List (ℕ × Finset ℕ)) :
    (compute_efs_loop E T mp targets events).2 =
      (events.map fun kv =>
        if nlookup E kv.1 = 0 then 0
        else (targets.map fun kw => (kw.2 ∩ kv.2).card).sum).sum := by
  induction events with
  | nil => rfl
  | cons kv rest ih =>
    simp only [compute_efs_loop]
    by_cases h0 : nlookup E kv.1 = 0
    · simp [h0, ih]
    · simp [h0, ih, compute_efs_scan_P]

/-- Claim C1: for pruned event and target maps with marginal sums produced
by `precompute_sums`, the global triplet count `P` accumulated by
`compute_efs` equals the sum over all (event, target) pairs of the size of
the intersection of their molecule sets — including pairs whose
intersection is below the minimum-pairs threshold, and despite the outer
loop skipping events with `E[event] == 0` (such events have no molecule
with a target, so all their intersections are empty). -/
theorem compute_efs_P_eq_full_cross_sum
    (events_to_drugs targets_to_drugs : SetDict) (E T : List (ℕ × ℕ)) (min_pairs : ℕ)
    (hpre : precompute_sums events_to_drugs targets_to_drugs = some (E, T))
    (hne : (events_to_drugs.map Prod.fst).Nodup)
    (hpruned : ∀ kv ∈ events_to_drugs, kv.2 ⊆ flatten_setdict targets_to_drugs) :
    compute_efs_P E T events_to_drugs targets_to_drugs min_pairs =
      (events_to_drugs.map fun kv =>
        (targets_to_drugs.map fun kw => (kw.2 ∩ kv.2).card).sum).sum := by
  rw [precompute_sums] at hpre
  split at hpre
  case isFalse => cases hpre
  case isTrue hlen =>
    simp only [Option.some.injEq, Prod.mk.injEq] at hpre
    obtain ⟨hE, hT⟩ := hpre
    rw [compute_efs_P, compute_efs_loop_P]
    refine congrArg List.sum (List.map_congr_left ?_)
    intro kv hkv
    by_cases h0 : nlookup E kv.1 = 0
    · rw [if_pos h0]
      have hEkv : nlookup E kv.1 =
          kv.2.sum fun drug => (dlookup (flip_setdict targets_to_drugs) drug).card := by
        rw [← hE]
        exact nlookup_map_of_mem _ hne hkv
      have hzero : ∀ drug ∈ kv.2, (dlookup (flip_setdict targets_to_drugs) drug).card = 0 := by
        rw [hEkv] at h0
        exact (Finset.sum_eq_zero_iff).mp h0
      refine (List.sum_eq_zero ?_).symm
      intro n hn
      obtain ⟨kw, hkw, hval⟩ := List.mem_map.mp hn
      rw [← hval]
      rw [Finset.card_eq_zero]
      by_contra hne2
      obtain ⟨m, hm⟩ := Finset.nonempty_iff_ne_empty.mpr hne2
      have hmkw : m ∈ kw.2 := (Finset.mem_inter.mp hm).1
      have hmkv : m ∈ kv.2 := (Finset.mem_inter.mp hm).2
      have hflip : kw.1 ∈ dlookup (flip_setdict targets_to_drugs) m :=
        mem_dlookup_flip hkw hmkw
      have := hzero m hmkv
      rw [Finset.card_eq_zero] at this
      rw [this] at hflip
      cases hflip
    · rw [if_neg h0]

/-! ### Stored EF values (claim C2) -/

theorem compute_efs_scan_mem {E T : List (ℕ × ℕ)} {mp : ℕ} {ev : ℕ × Finset ℕ}
    {targets : List (ℕ × Finset ℕ)} {t e : ℕ} {v : ℚ}
    (hmem : ((t, e), v) ∈ (compute_efs_scan E T mp ev targets).1) :
    e = ev.1 ∧ ∃ kw ∈ targets, t = kw.1 ∧ mp ≤ (kw.2 ∩ ev.2).card ∧
      nlookup E ev.1 * nlookup T kw.1 ≠ 0 ∧
      v = ((kw.2 ∩ ev.2).card : ℚ) / ((nlookup E ev.1 * nlookup T kw.1 : ℕ) : ℚ) := by
  induction targets with
  | nil => cases hmem
  | cons kw rest ih =>
    rw [compute_efs_scan] at hmem
    by_cases h1 : (kw.2 ∩ ev.2).card < mp
    · rw [if_pos h1] at hmem
      obtain ⟨he, kw2, hkw2, rest2⟩ := ih hmem
      exact ⟨he, kw2, List.mem_cons_of_mem _ hkw2, rest2⟩
    · rw [if_neg h1] at hmem
      by_cases h2 : nlookup E ev.1 * nlookup T kw.1 = 0
      · rw [if_pos h2] at hmem
        obtain ⟨he, kw2, hkw2, rest2⟩ := ih hmem
        exact ⟨he, kw2, List.mem_cons_of_mem _ hkw2, rest2⟩
      · rw [if_neg h2] at hmem
        rcases List.mem_cons.mp hmem with h | h
        · injection h with hkey hval
          injection hkey with hkt hke
          exact ⟨hke, kw, List.mem_cons_self kw rest, hkt,
            Nat.not_lt.mp h1, h2, hval⟩
        · obtain ⟨he, kw2, hkw2, rest2⟩ := ih h
          exact ⟨he, kw2, List.mem_cons_of_mem _ hkw2, rest2⟩

theorem compute_efs_loop_mem {E T : List (ℕ × ℕ)} {mp : ℕ}
    {targets events : List (ℕ × Finset ℕ)} {t e : ℕ} {v : ℚ}
    (hmem : ((t, e), v) ∈ (compute_efs_loop E T mp targets events).1) :
    ∃ kv ∈ events, e = kv.1 ∧ nlookup E kv.1 ≠ 0 ∧ ∃ kw ∈ targets, t = kw.1 ∧
      mp ≤ (kw.2 ∩ kv.2).card ∧ nlookup E kv.1 * nlookup T kw.1 ≠ 0 ∧
      v = ((kw.2 ∩ kv.2).card : ℚ) / ((nlookup E kv.1 * nlookup T kw.1 : ℕ) : ℚ) := by
  induction events with
  | nil => cases hmem
  | cons kv rest ih =>
    rw [compute_efs_loop] at hmem
    by_cases h0 : nlookup E kv.1 = 0
    · rw [if_pos h0] at hmem
      obtain ⟨kv2, hkv2, rest2⟩ := ih hmem
      exact ⟨kv2, List.mem_cons_of_mem _ hkv2, rest2⟩
    · rw [if_neg h0] at hmem
      rcases List.mem_append.mp hmem with h | h
      · obtain ⟨he, hrest⟩ := compute_efs_scan_mem h
        exact ⟨kv, List.mem_cons_self kv rest, he, h0, hrest⟩
      · obtain ⟨kv2, hkv2, rest2⟩ := ih h
        exact ⟨kv2, List.mem_cons_of_mem _ hkv2, rest2⟩

/-- Claim C2: every (target, event) pair present in the mapping returned by
`compute_efs` stores the value `p * P / (E[event] * T[target])`, where `p`
is the size of the intersection of the target's and event's molecule sets
and `P` is the final global triplet count; and a pair is stored only if `p`
is at least the minimum-pairs threshold. -/
theorem compute_efs_stored_value (E T : List (ℕ × ℕ)) (events_to_drugs targets_to_drugs : SetDict)
    (min_pairs : ℕ) (ef_cutoff : ℚ) (t e : ℕ) (w : ℚ)
    (hne : (events_to_drugs.map Prod.fst).Nodup)
    (hnt : (targets_to_drugs.map Prod.fst).Nodup)
    (hmem : ((t, e), w) ∈ compute_efs E T events_to_drugs targets_to_drugs min_pairs ef_cutoff) :
    min_pairs ≤ (dlookup targets_to_drugs t ∩ dlookup events_to_drugs e).card ∧
      w = ((dlookup targets_to_drugs t ∩ dlookup events_to_drugs e).card : ℚ) *
          (compute_efs_P E T events_to_drugs targets_to_drugs min_pairs : ℚ) /
          ((nlookup E e * nlookup T t : ℕ) : ℚ) := by
  simp only [compute_efs, List.mem_map] at hmem
  obtain ⟨kv2, hkv2, heq⟩ := hmem
  injection heq with h1 h2
  have hkv2eta : kv2 = ((t, e), kv2.2) := by rw [← h1]
  have hkv2b : ((t, e), kv2.2) ∈
      (compute_efs_loop E T min_pairs targets_to_drugs events_to_drugs).1 := by
    rw [← hkv2eta]
    exact hkv2
  obtain ⟨kv, hkv, he, hE0, kw, hkw, ht, hp, hden, hval⟩ := compute_efs_loop_mem hkv2b
  have hdt : dlookup targets_to_drugs t = kw.2 := by
    rw [ht]
    exact dlookup_of_mem hnt hkw
  have hde : dlookup events_to_drugs e = kv.2 := by
    rw [he]
    exact dlookup_of_mem hne hkv
  rw [hdt, hde, he, ht]
  refine ⟨hp, ?_⟩
  rw [← h2, hval, compute_efs_P]
  rw [div_mul_eq_mul_div]

/-! ### The zero-denominator branch (claim C4) -/

theorem ef_error_scan_eq_nil {E T : List (ℕ × ℕ)} {mp : ℕ} {ev : ℕ × Finset ℕ}
    {targets : List (ℕ × Finset ℕ)}
    (h : ∀ kw ∈ targets, mp ≤ (kw.2 ∩ ev.2).card → nlookup E ev.1 * nlookup T kw.1 ≠ 0) :
    ef_error_scan E T mp ev targets = [] := by
  induction targets with
  | nil => rfl
  | cons kw rest ih =>
    rw [ef_error_scan]
    have hrest := ih fun kw2 hkw2 => h kw2 (List.mem_cons_of_mem _ hkw2)
    by_cases h1 : (kw.2 ∩ ev.2).card < mp
    · simp [h1, hrest]
    · have hden := h kw (List.mem_cons_self kw rest) (Nat.not_lt.mp h1)
      simp [h1, hden, hrest]

theorem ef_error_pairs_eq_nil {E T : List (ℕ × ℕ)} {mp : ℕ}
    {targets events : List (ℕ × Finset ℕ)}
    (h : ∀ kv ∈ events, nlookup E kv.1 ≠ 0 → ∀ kw ∈ targets,
      mp ≤ (kw.2 ∩ kv.2).card → nlookup E kv.1 * nlookup T kw.1 ≠ 0) :
    ef_error_pairs E T mp targets events = [] := by
  induction events with
  | nil => rfl
  | cons kv rest ih =>
    rw [ef_error_pairs]
    have hrest := ih fun kv2 hkv2 => h kv2 (List.mem_cons_of_mem _ hkv2)
    by_cases h0 : nlookup E kv.1 = 0
    · simp [h0, hrest]
    · have hscan := ef_error_scan_eq_nil (h kv (List.mem_cons_self kv rest) h0)
      simp [h0, hscan, hrest]

/-- Claim C4 (amended): with marginal sums produced by `precompute_sums`
and a minimum-pairs threshold of at least 1, the except branch of
`compute_efs` is unreachable: no pair that reaches the division has a zero
denominator, because a surviving intersection is nonempty and any common
molecule forces `E[event] ≥ 1` and `T[target] ≥ 1`.  (The pruning
precondition of the claim is kept as a hypothesis; the zero-denominator
skip itself is embedded in `compute_efs` as the guarded branch.) -/
theorem ef_error_pairs_unreachable (events_to_drugs targets_to_drugs : SetDict)
    (E T : List (ℕ × ℕ)) (min_pairs : ℕ)
    (hpre : precompute_sums events_to_drugs targets_to_drugs = some (E, T))
    (hne : (events_to_drugs.map Prod.fst).Nodup)
    (hnt : (targets_to_drugs.map Prod.fst).Nodup)
    (hinv : pruning_precondition E events_to_drugs targets_to_drugs)
    (hmp : 1 ≤ min_pairs) :
    ef_error_pairs E T min_pairs targets_to_drugs events_to_drugs = [] := by
  rw [precompute_sums] at hpre
  split at hpre
  case isFalse => cases hpre
  case isTrue hlen =>
    simp only [Option.some.injEq, Prod.mk.injEq] at hpre
    obtain ⟨hE, hT⟩ := hpre
    apply ef_error_pairs_eq_nil
    intro kv hkv hE0 kw hkw hple
    have hpos : 0 < (kw.2 ∩ kv.2).card := lt_of_lt_of_le hmp hple
    obtain ⟨m, hm⟩ := Finset.card_pos.mp hpos
    have hmkw : m ∈ kw.2 := (Finset.mem_inter.mp hm).1
    have hmkv : m ∈ kv.2 := (Finset.mem_inter.mp hm).2
    have hEval : nlookup E kv.1 =
        kv.2.sum fun drug => (dlookup (flip_setdict targets_to_drugs) drug).card := by
      rw [← hE]
      exact nlookup_map_of_mem _ hne hkv
    have hTval : nlookup T kw.1 =
        kw.2.sum fun drug => (dlookup (flip_setdict events_to_drugs) drug).card := by
      rw [← hT]
      exact nlookup_map_of_mem _ hnt hkw
    have hT1 : 0 < nlookup T kw.1 := by
      rw [hTval]
      have hflip : kv.1 ∈ dlookup (flip_setdict events_to_drugs) m :=
        mem_dlookup_flip hkv hmkv
      have hfm : 0 < (dlookup (flip_setdict events_to_drugs) m).card :=
        Finset.card_pos.mpr ⟨kv.1, hflip⟩
      have hle := Finset.single_le_sum
        (f := fun drug => (dlookup (flip_setdict events_to_drugs) drug).card)
        (fun i _ => Nat.zero_le _) hmkw
      exact lt_of_lt_of_le hfm hle
    have hE1 : 0 < nlookup E kv.1 := Nat.pos_of_ne_zero hE0
    exact Nat.mul_ne_zero (Nat.pos_iff_ne_zero.mp hE1) (Nat.pos_iff_ne_zero.mp hT1)

/-! ### Key counts of the flipped maps (claim C3) -/

theorem flatten_setdict_cons (hd : ℕ × Finset ℕ) (tl : SetDict) :
    flatten_setdict (hd :: tl) = hd.2 ∪ flatten_setdict tl := by
  show tl.foldl _ (∅ ∪ hd.2) = _
  rw [flatten_setdict_foldl, Finset.empty_union]

theorem keys_dinsert (d : SetDict) (x k : ℕ) :
    (dinsert d x k).map Prod.fst =
      if x ∈ d.map Prod.fst then d.map Prod.fst else d.map Prod.fst ++ [x] := by
  rw [dinsert]
  by_cases hx : x ∈ d.map Prod.fst
  · rw [if_pos hx, if_pos hx, List.map_map]
    refine List.map_congr_left ?_
    intro kv _
    by_cases h : kv.1 = x <;> simp [h]
  · rw [if_neg hx, if_neg hx, List.map_append]
    rfl

theorem keys_dinsert_nodup {d : SetDict} (hnd : (d.map Prod.fst).Nodup) (x k : ℕ) :
    ((dinsert d x k).map Prod.fst).Nodup := by
  rw [keys_dinsert]
  by_cases hx : x ∈ d.map Prod.fst
  · rwa [if_pos hx]
  · rw [if_neg hx]
    simp [List.nodup_append, hnd, hx]

theorem keys_dinsert_toFinset (d : SetDict) (x k : ℕ) :
    ((dinsert d x k).map Prod.fst).toFinset = insert x (d.map Prod.fst).toFinset := by
  rw [keys_dinsert]
  by_cases hx : x ∈ d.map Prod.fst
  · rw [if_pos hx]
    exact (Finset.insert_eq_self.mpr (by simpa using hx)).symm
  · rw [if_neg hx]
    simp [Finset.union_comm, Finset.insert_eq]

theorem keys_foldl_dinsert (k : ℕ) :
    ∀ (xs : List ℕ) (d : SetDict), (d.map Prod.fst).Nodup →
      (((xs.foldl (fun o x => dinsert o x k) d).map Prod.fst).Nodup ∧
        ((xs.foldl (fun o x => dinsert o x k) d).map Prod.fst).toFinset =
          (d.map Prod.fst).toFinset ∪ xs.toFinset) := by
  intro xs
  induction xs with
  | nil =>
    intro d hnd
    exact ⟨hnd, by simp⟩
  | cons x xs ih =>
    intro d hnd
    obtain ⟨h1, h2⟩ := ih (dinsert d x k) (keys_dinsert_nodup hnd x k)
    refine ⟨h1, ?_⟩
    show ((xs.foldl _ (dinsert d x k)).map Prod.fst).toFinset = _
    rw [h2, keys_dinsert_toFinset]
    simp [Finset.insert_union, Finset.union_insert]

theorem flip_setdict_keys :
    ∀ (d : SetDict) (acc : SetDict), (acc.map Prod.fst).Nodup →
      (((d.foldl (fun out kv =>
          (kv.2.sort (· ≤ ·)).foldl (fun o x => dinsert o x kv.1) out) acc).map Prod.fst).Nodup ∧
        ((d.foldl (fun out kv =>
          (kv.2.sort (· ≤ ·)).foldl (fun o x => dinsert o x kv.1) out) acc).map Prod.fst).toFinset =
          (acc.map Prod.fst).toFinset ∪ flatten_setdict d) := by
  intro d
  induction d with
  | nil =>
    intro acc hnd
    refine ⟨hnd, ?_⟩
    simp [flatten_setdict]
  | cons hd tl ih =>
    intro acc hnd
    obtain ⟨ha1, ha2⟩ := keys_foldl_dinsert hd.1 (hd.2.sort (· ≤ ·)) acc hnd
    obtain ⟨h1, h2⟩ := ih ((hd.2.sort (· ≤ ·)).foldl (fun o x => dinsert o x hd.1) acc) ha1
    refine ⟨h1, ?_⟩
    show ((tl.foldl _ ((hd.2.sort (· ≤ ·)).foldl (fun o x => dinsert o x hd.1) acc)).map
      Prod.fst).toFinset = _
    rw [h2, ha2, flatten_setdict_cons, Finset.sort_toFinset, Finset.union_assoc]

theorem flip_setdict_length (d : SetDict) :
    (flip_setdict d).length = (flatten_setdict d).card := by
  obtain ⟨hnd, hts⟩ := flip_setdict_keys d [] (by simp)
  have hlen : (flip_setdict d).length = ((flip_setdict d).map Prod.fst).length := by
    rw [List.length_map]
  rw [hlen, flip_setdict, ← List.toFinset_card_of_nodup hnd, hts]
  simp

/-- Claim C3 counterexample: at `events = [(1, {10})]`,
`targets = [(2, {20})]` the two inverted maps have different key sets (one
is keyed by molecule 10, the other by molecule 20) but equal key counts, so
the assertion of `precompute_sums` passes and E and T are returned — the
code compares `len`s, not key sets. -/
theorem precompute_sums_keyset_counterexample :
    ((flip_setdict [(1, {10})]).map Prod.fst).toFinset ≠
        ((flip_setdict [(2, {20})]).map Prod.fst).toFinset ∧
      (precompute_sums [(1, {10})] [(2, {20})]).isSome = true := by
  constructor
  · simp [flip_setdict, dinsert, Finset.sort_singleton]
  · simp [precompute_sums, flip_setdict, dinsert, Finset.sort_singleton]

/-- Claim C3 (amended): `precompute_sums` aborts via its assertion exactly
when the two inverted maps have different numbers of keys — equivalently,
when the number of distinct molecules appearing in the event map differs
from the number of distinct molecules appearing in the target map; it
returns E and T exactly when the two counts agree (identical key sets are
not required, only equal cardinalities). -/
theorem precompute_sums_isSome_iff_card_eq (events_to_drugs targets_to_drugs : SetDict) :
    (precompute_sums events_to_drugs targets_to_drugs).isSome = true ↔
      (flatten_setdict events_to_drugs).card = (flatten_setdict targets_to_drugs).card := by
  rw [precompute_sums]
  split
  case isTrue hlen =>
    simp only [Option.isSome_some, true_iff]
    rw [← flip_setdict_length, ← flip_setdict_length]
    exact hlen
  case isFalse hlen =>
    simp only [Option.isSome_none, Bool.false_eq_true, false_iff]
    rw [← flip_setdict_length, ← flip_setdict_length]
    exact hlen

/-! ### Holm correction lemmas (claim C6) -/

theorem holmLt_irrefl (ps : List ℚ) (i : ℕ) : ¬holmLt ps i i := by
  rw [holmLt]
  rintro (h | ⟨_, h⟩)
  · exact lt_irrefl _ h
  · exact lt_irrefl _ h

theorem holmLt_trans {ps : List ℚ} {i j k : ℕ} (h1 : holmLt ps i j) (h2 : holmLt ps j k) :
    holmLt ps i k := by
  rw [holmLt] at h1 h2 ⊢
  rcases h1 with h1 | ⟨he1, hl1⟩
  · rcases h2 with h2 | ⟨he2, hl2⟩
    · exact Or.inl (h1.trans h2)
    · exact Or.inl (h1.trans_eq he2)
  · rcases h2 with h2 | ⟨he2, hl2⟩
    · exact Or.inl (lt_of_eq_of_lt he1 h2)
    · exact Or.inr ⟨he1.trans he2, hl1.trans hl2⟩

theorem holmLt_total {ps : List ℚ} {i j : ℕ} (hne : i ≠ j) : holmLt ps i j ∨ holmLt ps j i := by
  rcases lt_trichotomy (ps.getD i 0) (ps.getD j 0) with h | h | h
  · exact Or.inl (Or.inl h)
  · rcases Nat.lt_or_ge i j with hij | hij
    · exact Or.inl (Or.inr ⟨h, hij⟩)
    · exact Or.inr (Or.inr ⟨h.symm, lt_of_le_of_ne hij (Ne.symm hne)⟩)
  · exact Or.inr (Or.inl h)

theorem holmLt_le {ps : List ℚ} {i j : ℕ} (h : holmLt ps i j) :
    ps.getD i 0 ≤ ps.getD j 0 := by
  rcases h with h | ⟨h, _⟩
  · exact h.le
  · exact h.le

theorem holm_rank_lt_length {ps : List ℚ} {i : ℕ} (hi : i < ps.length) :
    holm_rank ps i < ps.length := by
  rw [holm_rank]
  have hsub : (Finset.range ps.length).filter (fun k => holmLt ps k i) ⊂
      Finset.range ps.length := by
    refine (Finset.ssubset_iff_of_subset (Finset.filter_subset _ _)).mpr ?_
    exact ⟨i, Finset.mem_range.mpr hi, by simp [holmLt_irrefl]⟩
  simpa using Finset.card_lt_card hsub

theorem holm_rank_strict_mono {ps : List ℚ} {i j : ℕ} (hi : i < ps.length)
    (hlt : holmLt ps i j) : holm_rank ps i < holm_rank ps j := by
  apply Finset.card_lt_card
  refine (Finset.ssubset_iff_of_subset ?_).mpr
    ⟨i, Finset.mem_filter.mpr ⟨Finset.mem_range.mpr hi, hlt⟩, by simp [holmLt_irrefl]⟩
  intro k hk
  rw [Finset.mem_filter] at hk ⊢
  exact ⟨hk.1, holmLt_trans hk.2 hlt⟩

theorem holm_raw_le_of_tie {ps : List ℚ} {j k : ℕ} (hj : j < ps.length)
    (hjk : holmLt ps j k) (heq : ps.getD j 0 = ps.getD k 0) (h0 : 0 ≤ ps.getD j 0) :
    holm_raw ps k ≤ holm_raw ps j := by
  rw [holm_raw, holm_raw, ← heq]
  refine mul_le_mul_of_nonneg_right ?_ h0
  exact_mod_cast Nat.sub_le_sub_left (holm_rank_strict_mono hj hjk).le ps.length

theorem getD_le_holm_raw {ps : List ℚ} {i : ℕ} (hi : i < ps.length)
    (h0 : 0 ≤ ps.getD i 0) : ps.getD i 0 ≤ holm_raw ps i := by
  rw [holm_raw]
  have h1 : 1 ≤ ((ps.length - holm_rank ps i : ℕ) : ℚ) := by
    exact_mod_cast Nat.sub_pos_of_lt (holm_rank_lt_length hi)
  exact le_mul_of_one_le_left h0 h1

theorem holm_raw_le_fold_base (ps : List ℚ) (i : ℕ) : holm_raw ps i ≤ holm_fold ps i :=
  (Finset.le_fold_max _).mpr (Or.inl le_rfl)

theorem holm_raw_le_fold_mem {ps : List ℚ} {i k : ℕ}
    (hk : k ∈ (Finset.range ps.length).filter fun x => holmLt ps x i) :
    holm_raw ps k ≤ holm_fold ps i :=
  (Finset.le_fold_max _).mpr (Or.inr ⟨k, hk, le_rfl⟩)

theorem holm_fold_le {ps : List ℚ} {i : ℕ} {c : ℚ} (hbase : holm_raw ps i ≤ c)
    (hmem : ∀ k ∈ (Finset.range ps.length).filter fun x => holmLt ps x i,
      holm_raw ps k ≤ c) :
    holm_fold ps i ≤ c :=
  (Finset.fold_max_le _).mpr ⟨hbase, hmem⟩

theorem holm_fold_mono {ps : List ℚ} (h0 : ∀ p ∈ ps, 0 ≤ p) {i j : ℕ}
    (hi : i < ps.length) (hj : j < ps.length) (hpij : ps.getD i 0 ≤ ps.getD j 0) :
    holm_fold ps i ≤ holm_fold ps j := by
  have hnn : ∀ k, k < ps.length → 0 ≤ ps.getD k 0 := by
    intro k hk
    rw [List.getD_eq_getElem ps 0 hk]
    exact h0 _ (List.getElem_mem hk)
  rcases eq_or_ne i j with rfl | hne
  · exact le_rfl
  rcases holmLt_total hne with hij | hji
  · refine holm_fold_le ?_ ?_
    · exact holm_raw_le_fold_mem
        (Finset.mem_filter.mpr ⟨Finset.mem_range.mpr hi, hij⟩)
    · intro k hk
      rw [Finset.mem_filter] at hk
      exact holm_raw_le_fold_mem (Finset.mem_filter.mpr ⟨hk.1, holmLt_trans hk.2 hij⟩)
  · have htie : ps.getD j 0 = ps.getD i 0 ∧ j < i := by
      rcases hji with h | h
      · exact absurd hpij (not_le.mpr h)
      · exact h
    refine holm_fold_le ?_ ?_
    · exact (holm_raw_le_of_tie hj hji htie.1 (hnn j hj)).trans (holm_raw_le_fold_base ps j)
    · intro k hk
      rw [Finset.mem_filter] at hk
      obtain ⟨hkr, hki⟩ := hk
      have hklen := Finset.mem_range.mp hkr
      rcases eq_or_ne k j with rfl | hkj
      · exact holm_raw_le_fold_base ps k
      rcases holmLt_total hkj with hkj2 | hjk2
      · exact holm_raw_le_fold_mem (Finset.mem_filter.mpr ⟨hkr, hkj2⟩)
      · have heqjk : ps.getD j 0 = ps.getD k 0 :=
          le_antisymm (holmLt_le hjk2) (by rw [htie.1]; exact holmLt_le hki)
        exact (holm_raw_le_of_tie hj hjk2 heqjk (hnn j hj)).trans (holm_raw_le_fold_base ps j)

theorem holm_adjusted_getD {ps : List ℚ} {i : ℕ} (hi : i < ps.length) :
    (holm_adjusted ps).getD i 0 = min 1 (holm_fold ps i) := by
  rw [holm_adjusted]
  have hlen : i < ((List.range ps.length).map fun i => min 1 (holm_fold ps i)).length := by
    simpa using hi
  rw [List.getD_eq_getElem _ 0 hlen, List.getElem_map, List.getElem_range]

theorem holm_adjusted_mono {ps : List ℚ} (h0 : ∀ p ∈ ps, 0 ≤ p) {i j : ℕ}
    (hi : i < ps.length) (hj : j < ps.length) (hpij : ps.getD i 0 ≤ ps.getD j 0) :
    (holm_adjusted ps).getD i 0 ≤ (holm_adjusted ps).getD j 0 := by
  rw [holm_adjusted_getD hi, holm_adjusted_getD hj]
  exact min_le_min le_rfl (holm_fold_mono h0 hi hj hpij)

theorem getD_le_holm_adjusted {ps : List ℚ} (h0 : ∀ p ∈ ps, 0 ≤ p ∧ p ≤ 1) {i : ℕ}
    (hi : i < ps.length) : ps.getD i 0 ≤ (holm_adjusted ps).getD i 0 := by
  rw [holm_adjusted_getD hi]
  have hmem : ps.getD i 0 ∈ ps := by
    rw [List.getD_eq_getElem ps 0 hi]
    exact List.getElem_mem hi
  refine le_min (h0 _ hmem).2 ?_
  exact (getD_le_holm_raw hi (h0 _ hmem).1).trans (holm_raw_le_fold_base ps i)

/-- Claim C6: when no Bonferroni count is supplied, the Holm-corrected
q-values returned by `compute_q_values` are non-decreasing when the pairs
are ordered by ascending raw p-value, and every q-value is at least its
corresponding raw p-value.  The chi-squared p-value oracle `pv` is assumed
to produce genuine p-values in [0, 1]. -/
theorem compute_q_values_holm_monotone
    (contingencies : List ((ℕ × ℕ) × (ℤ × ℤ × ℤ × ℤ))) (pv : ℤ × ℤ × ℤ × ℤ → ℚ)
    (hp : ∀ kv ∈ contingencies, 0 ≤ pv kv.2 ∧ pv kv.2 ≤ 1) :
    (∀ i j, i < contingencies.length → j < contingencies.length →
      (compute_q_values contingencies pv none).2.1.getD i 0 ≤
        (compute_q_values contingencies pv none).2.1.getD j 0 →
      (compute_q_values contingencies pv none).2.2.getD i 0 ≤
        (compute_q_values contingencies pv none).2.2.getD j 0) ∧
    ∀ i, i < contingencies.length →
      (compute_q_values contingencies pv none).2.1.getD i 0 ≤
        (compute_q_values contingencies pv none).2.2.getD i 0 := by
  have hps : (compute_q_values contingencies pv none).2.1 =
      contingencies.map fun kv => pv kv.2 := rfl
  have hqs : (compute_q_values contingencies pv none).2.2 =
      holm_adjusted (contingencies.map fun kv => pv kv.2) := by
    simp [compute_q_values]
  set ps := contingencies.map fun kv => pv kv.2 with hpsdef
  have hlen : ps.length = contingencies.length := by
    rw [hpsdef, List.length_map]
  have hbounds : ∀ p ∈ ps, 0 ≤ p ∧ p ≤ 1 := by
    intro p hpmem
    rw [hpsdef] at hpmem
    obtain ⟨kv, hkv, hvp⟩ := List.mem_map.mp hpmem
    exact hvp ▸ hp kv hkv
  constructor
  · intro i j hilen hjlen hple
    rw [hps] at hple
    rw [hqs]
    exact holm_adjusted_mono (fun p hpm => (hbounds p hpm).1)
      (hlen ▸ hilen) (hlen ▸ hjlen) hple
  · intro i hilen
    rw [hps, hqs]
    exact getD_le_holm_adjusted hbounds (hlen ▸ hilen)

/-! ### Bonferroni scaling (claim C5) -/

/-- Claim C5 counterexample: supplying the Bonferroni count 0 — which is
falsy in Python, `if bonferroni_count:` — routes `compute_q_values` to the
Holm correction, so the returned q-value is 1/2 and not p-value × 0 = 0. -/
theorem compute_q_values_bonferroni_zero_counterexample :
    (compute_q_values [((0, 0), (0, 0, 0, 0))] (fun _ => 1/2) (some 0)).2.2 ≠
      (compute_q_values [((0, 0), (0, 0, 0, 0))] (fun _ => 1/2) (some 0)).2.1.map
        fun p => p * ((0 : ℕ) : ℚ) := by
  have h1 : (compute_q_values [((0, 0), (0, 0, 0, 0))] (fun _ => 1/2) (some 0)).2.2 =
      holm_adjusted [1/2] := by
    simp [compute_q_values]
  have hr : List.range ([(1 : ℚ)/2].length) = [0] := rfl
  have hfr : Finset.range ([(1 : ℚ)/2].length) = {0} := rfl
  have h2 : holm_adjusted [(1 : ℚ)/2] = [1/2] := by
    rw [holm_adjusted, hr, List.map_cons, List.map_nil]
    have hfold : holm_fold [(1 : ℚ)/2] 0 = 1/2 := by
      rw [holm_fold, hfr]
      have hcond : ¬holmLt [(1 : ℚ)/2] 0 0 := holmLt_irrefl _ 0
      rw [Finset.filter_singleton, if_neg hcond, Finset.fold_empty]
      rw [holm_raw, holm_rank, hfr, Finset.filter_singleton, if_neg hcond]
      norm_num
    rw [hfold]
    norm_num
  rw [h1, h2]
  norm_num [compute_q_values]

/-- Claim C5 (amended): when a nonzero Bonferroni count N is supplied to
`compute_q_values` (a zero count is falsy and falls back to Holm), every
returned q-value equals its raw p-value multiplied by N exactly, with no
clipping to [0, 1], so q-values greater than 1 are possible. -/
theorem compute_q_values_bonferroni_scaling
    (contingencies : List ((ℕ × ℕ) × (ℤ × ℤ × ℤ × ℤ))) (pv : ℤ × ℤ × ℤ × ℤ → ℚ)
    (N : ℕ) (hN : N ≠ 0) :
    (compute_q_values contingencies pv (some N)).2.2 =
      (compute_q_values contingencies pv (some N)).2.1.map fun p => p * (N : ℚ) := by
  simp [compute_q_values, hN]

/-! ### Counterexample for claim C4 as stated -/

/-- Claim C4 counterexample: with a minimum-pairs threshold of 0 the
pruning precondition holds and yet the zero-denominator except branch is
reached: target 1 has an empty molecule set, so `T[1] = 0` and the pair
(1, 0) passes the threshold check with an empty intersection, reaching the
division. -/
theorem ef_error_branch_reachable_counterexample :
    precompute_sums [(0, {0})] [(0, {0}), (1, (∅ : Finset ℕ))] =
        some ([(0, 1)], [(0, 1), (1, 0)]) ∧
      pruning_precondition [(0, 1)] [(0, {0})] [(0, {0}), (1, (∅ : Finset ℕ))] ∧
      ef_error_pairs [(0, 1)] [(0, 1), (1, 0)] 0 [(0, {0}), (1, (∅ : Finset ℕ))]
        [(0, {0})] = [(1, 0)] := by
  refine ⟨?_, by decide, by decide⟩
  simp [precompute_sums, flip_setdict, dinsert, dlookup, Finset.sort_singleton,
    Finset.sort_empty]

/-! ### Witnesses -/

theorem compute_efs_P_eq_full_cross_sum_witness :
    compute_efs_P [(1, 1)] [(2, 1)] [(1, ({10} : Finset ℕ))] [(2, ({10} : Finset ℕ))] 4 = 1 := by
  have h := compute_efs_P_eq_full_cross_sum [(1, {10})] [(2, {10})] [(1, 1)] [(2, 1)] 4
    (by simp [precompute_sums, flip_setdict, dinsert, dlookup, Finset.sort_singleton])
    (by decide) (by decide)
  rw [h]
  decide

theorem compute_efs_stored_value_witness :
    1 ≤ (dlookup [(2, ({5} : Finset ℕ))] 2 ∩ dlookup [(1, ({5} : Finset ℕ))] 1).card ∧
      (1 : ℚ) = ((dlookup [(2, ({5} : Finset ℕ))] 2 ∩ dlookup [(1, ({5} : Finset ℕ))] 1).card : ℚ) *
          (compute_efs_P [(1, 1)] [(2, 1)] [(1, ({5} : Finset ℕ))] [(2, ({5} : Finset ℕ))] 1 : ℚ) /
          ((nlookup [(1, 1)] 1 * nlookup [(2, 1)] 2 : ℕ) : ℚ) :=
  compute_efs_stored_value [(1, 1)] [(2, 1)] [(1, ({5} : Finset ℕ))] [(2, ({5} : Finset ℕ))]
    1 3 2 1 1 (by decide) (by decide)
    (by norm_num [compute_efs, compute_efs_loop, compute_efs_scan, nlookup])

theorem precompute_sums_isSome_witness :
    (precompute_sums [(3, ({7} : Finset ℕ))] [(4, ({8} : Finset ℕ))]).isSome = true :=
  (precompute_sums_isSome_iff_card_eq [(3, {7})] [(4, {8})]).mpr (by decide)

theorem ef_error_pairs_unreachable_witness :
    ef_error_pairs [(1, 1)] [(2, 1)] 1 [(2, ({10} : Finset ℕ))] [(1, ({10} : Finset ℕ))] = [] :=
  ef_error_pairs_unreachable [(1, {10})] [(2, {10})] [(1, 1)] [(2, 1)] 1
    (by simp [precompute_sums, flip_setdict, dinsert, dlookup, Finset.sort_singleton])
    (by decide) (by decide) (by decide) (by decide)

theorem compute_q_values_bonferroni_scaling_witness :
    (compute_q_values [((0, 0), (0, 0, 0, 0))] (fun _ => 1/2) (some 4)).2.2 =
      (compute_q_values [((0, 0), (0, 0, 0, 0))] (fun _ => 1/2) (some 4)).2.1.map
        fun p => p * ((4 : ℕ) : ℚ) :=
  compute_q_values_bonferroni_scaling [((0, 0), (0, 0, 0, 0))] (fun _ => 1/2) 4 (by decide)

theorem compute_q_values_holm_monotone_witness :
    ((compute_q_values [((0, 0), (0, 0, 0, 0)), ((1, 1), (1, 1, 1, 1))]
        (fun _ => 1/2) none).2.2.getD 0 0 ≤
      (compute_q_values [((0, 0), (0, 0, 0, 0)), ((1, 1), (1, 1, 1, 1))]
        (fun _ => 1/2) none).2.2.getD 1 0) ∧
    (compute_q_values [((0, 0), (0, 0, 0, 0)), ((1, 1), (1, 1, 1, 1))]
        (fun _ => 1/2) none).2.1.getD 0 0 ≤
      (compute_q_values [((0, 0), (0, 0, 0, 0)), ((1, 1), (1, 1, 1, 1))]
        (fun _ => 1/2) none).2.2.getD 0 0 := by
  have h := compute_q_values_holm_monotone
    [((0, 0), (0, 0, 0, 0)), ((1, 1), (1, 1, 1, 1))] (fun _ => 1/2)
    (by intro kv _; norm_num)
  exact ⟨h.1 0 1 (by decide) (by decide) (by norm_num [compute_q_values]),
    h.2 0 (by decide)⟩

theorem prune_events_keys_and_target_cover_witness :
    ((prune_events [(1, ({5, 7} : Finset ℕ))] {5, 7}
        (flatten_setdict [(2, ({5} : Finset ℕ))])).map Prod.fst = [1]) ∧
      ∃ kw ∈ [(2, ({5} : Finset ℕ))], 5 ∈ kw.2 := by
  have h := prune_events_keys_and_target_cover [(1, ({5, 7} : Finset ℕ))] {5, 7}
    [(2, ({5} : Finset ℕ))]
  constructor
  · rw [h.1]
    decide
  · exact h.2 (1, {5}) (by decide) 5 (by decide)

theorem map_contingency_tables_entries_witness :
    (0 : ℤ) ≤ 1 ∧ (0 : ℤ) ≤ 0 ∧ (0 : ℤ) ≤ 0 ∧ (0 : ℤ) ≤ 0 ∧
      (1 : ℤ) + 0 + 0 + 0 = (num_pairs [(0, ({1} : Finset ℕ))] : ℤ) :=
  map_contingency_tables_entries [((0, 0), 1)] [(0, ({1} : Finset ℕ))]
    [(0, ({1} : Finset ℕ))] 0 0 (1, 0, 0, 0) (by decide) (by decide) (by decide)

end EfAnalysis
